import Mathlib

/-!
Verification of the steep script-installer engine (version model, name
normalizer, metadata extractor, content hasher, conflict detector, restore
behaviour) against its specification.  The executable engine script is not
part of the source tree (only its test suite and example payloads are), so
each engine function is modelled from the specification text, cross-checked
against the expected values pinned by the test suite.
-/

/-! ## Version model -/

/-- Modelled from the spec: the parsed version value
`(major, minor, patch, suffix)` with canonical zero `(0,0,0,"")`. -/
structure VersionTuple where
  major : Nat
  minor : Nat
  patch : Nat
  suffix : String
  deriving DecidableEq, Repr

/-- Value of a list of decimal digit characters, most significant first. -/
def digitsVal : List Char → Nat → Nat
  | [], acc => acc
  | c :: cs, acc => digitsVal cs (acc * 10 + (c.toNat - 48))

/-- Modelled from the spec: take up to three leading dot-separated numeric
segments (missing segments default to 0); everything after the numeric
prefix, including a separator character, is kept verbatim as the suffix; a
string with no valid numeric prefix yields `(0,0,0, original)`. -/
def parseSegments (cs : List Char) : Nat × Nat × Nat × List Char :=
  let d1 := cs.takeWhile Char.isDigit
  let r1 := cs.dropWhile Char.isDigit
  if d1.isEmpty then (0, 0, 0, cs)
  else
    match r1 with
    | '.' :: r2 =>
      let d2 := r2.takeWhile Char.isDigit
      let r3 := r2.dropWhile Char.isDigit
      if d2.isEmpty then (digitsVal d1 0, 0, 0, r1)
      else
        match r3 with
        | '.' :: r4 =>
          let d3 := r4.takeWhile Char.isDigit
          let r5 := r4.dropWhile Char.isDigit
          if d3.isEmpty then (digitsVal d1 0, digitsVal d2 0, 0, r3)
          else (digitsVal d1 0, digitsVal d2 0, digitsVal d3 0, r5)
        | _ => (digitsVal d1 0, digitsVal d2 0, 0, r3)
    | _ => (digitsVal d1 0, 0, 0, r1)

/-- Modelled from the spec: `parse_version` on a possibly-null version
string; `null` or empty input yields the canonical zero tuple. -/
def parse_version : Option String → VersionTuple
  | none => ⟨0, 0, 0, ""⟩
  | some s =>
    if s = "" then ⟨0, 0, 0, ""⟩
    else
      let r := parseSegments s.data
      ⟨r.1, r.2.1, r.2.2.1, String.mk r.2.2.2⟩

/-- Code-point lexicographic strict order on character lists, the order the
host language uses for plain string comparison. -/
def strLtB : List Char → List Char → Bool
  | [], [] => false
  | [], _ :: _ => true
  | _ :: _, [] => false
  | a :: as, b :: bs =>
    if a.toNat < b.toNat then true
    else if b.toNat < a.toNat then false
    else strLtB as bs

/-- Modelled from the spec: plain tuple comparison of parsed versions, the
numeric fields first and then the suffix as a string. -/
def vtLt (a b : VersionTuple) : Bool :=
  if a.major ≠ b.major then decide (a.major < b.major)
  else if a.minor ≠ b.minor then decide (a.minor < b.minor)
  else if a.patch ≠ b.patch then decide (a.patch < b.patch)
  else strLtB a.suffix.data b.suffix.data

/-! ## Formula string escaping -/

/-- Doubling pass for one character: a backslash becomes two. -/
def escSlash (c : Char) : List Char :=
  if c = '\\' then [ '\\', '\\' ] else [c]

/-- Quote pass for one character: a double quote gains a leading backslash. -/
def escQuote (c : Char) : List Char :=
  if c = '\"' then [ '\\', '\"' ] else [c]

/-- Modelled from the spec: escape a string for the formula backend by first
doubling every backslash and then escaping every double quote, in that
order. -/
def rb_escape (s : String) : String :=
  String.mk (((s.data.map escSlash).flatten.map escQuote).flatten)

/-- Single-pass reference escaping: each backslash becomes two, each double
quote gains a leading backslash, in one traversal. -/
def escBoth (c : Char) : List Char :=
  if c = '\\' then [ '\\', '\\' ] else if c = '\"' then [ '\\', '\"' ] else [c]

/-- The reversed-order escaping, for contrast: quotes first, then
backslashes. -/
def rbEscapeReversed (s : String) : String :=
  String.mk (((s.data.map escQuote).flatten.map escSlash).flatten)

theorem rb_escape_singlePass (s : String) :
    rb_escape s = String.mk (s.data.map escBoth).flatten := by
  unfold rb_escape
  congr 1
  induction s.data with
  | nil => rfl
  | cons c cs ih =>
    by_cases hb : c = '\\'
    · subst hb
      simp [escSlash, escQuote, escBoth] at ih ⊢
      exact ih
    · by_cases hq : c = '\"'
      · subst hq
        simp [escSlash, escQuote, escBoth] at ih ⊢
        exact ih
      · simp [escSlash, escQuote, escBoth, hb, hq] at ih ⊢
        exact ih

/-- C2: parse_version satisfies the reference definition on the pinned
cases: null or empty input yields the zero tuple; up to three leading
dot-separated numeric segments form the numeric fields with missing
segments defaulting to 0; everything after the numeric prefix, including a
separator character, is kept verbatim as the suffix; an input with no valid
numeric prefix yields the zero numeric fields with the original string as
suffix. -/
theorem parse_version_reference_cases :
    parse_version none = ⟨0, 0, 0, ""⟩ ∧
    parse_version (some "") = ⟨0, 0, 0, ""⟩ ∧
    parse_version (some "1.0.0") = ⟨1, 0, 0, ""⟩ ∧
    parse_version (some "2.1.3") = ⟨2, 1, 3, ""⟩ ∧
    parse_version (some "10.20.30") = ⟨10, 20, 30, ""⟩ ∧
    parse_version (some "1.0") = ⟨1, 0, 0, ""⟩ ∧
    parse_version (some "1.2") = ⟨1, 2, 0, ""⟩ ∧
    parse_version (some "3") = ⟨3, 0, 0, ""⟩ ∧
    parse_version (some "5") = ⟨5, 0, 0, ""⟩ ∧
    parse_version (some "1.0.0-beta") = ⟨1, 0, 0, "-beta"⟩ ∧
    parse_version (some "1.0.0-alpha") = ⟨1, 0, 0, "-alpha"⟩ ∧
    parse_version (some "2.1.0-beta.1") = ⟨2, 1, 0, "-beta.1"⟩ ∧
    parse_version (some "1.0.0-rc.1") = ⟨1, 0, 0, "-rc.1"⟩ ∧
    parse_version (some "1.a.b") = ⟨1, 0, 0, ".a.b"⟩ ∧
    parse_version (some "invalid") = ⟨0, 0, 0, "invalid"⟩ := by
  decide

/-- C1: version ordering is plain lexicographic comparison of the parsed
tuple: "1.0.0-beta" compares greater than "1.0.0-alpha", the pinned anomaly
holds that "1.0.0" (empty suffix) compares strictly less than
"1.0.0-alpha", the empty suffix compares below every non-empty suffix, and
the comparison is exactly the lexicographic order on the
(major, minor, patch, suffix) fields. -/
theorem version_order_lexicographic :
    (vtLt (parse_version (some "1.0.0-alpha")) (parse_version (some "1.0.0-beta")) = true) ∧
    (vtLt (parse_version (some "1.0.0-beta")) (parse_version (some "1.0.0-alpha")) = false) ∧
    (vtLt (parse_version (some "1.0.0")) (parse_version (some "1.0.0-alpha")) = true) ∧
    (vtLt (parse_version (some "1.0.0-alpha")) (parse_version (some "1.0.0")) = false) ∧
    (∀ m n p : Nat, ∀ s : String, s ≠ "" →
      vtLt ⟨m, n, p, ""⟩ ⟨m, n, p, s⟩ = true) ∧
    (∀ a b : VersionTuple, vtLt a b = true ↔
      (a.major < b.major ∨ (a.major = b.major ∧
        (a.minor < b.minor ∨ (a.minor = b.minor ∧
          (a.patch < b.patch ∨ (a.patch = b.patch ∧
            strLtB a.suffix.data b.suffix.data = true))))))) := by
  refine ⟨by decide, by decide, by decide, by decide, ?_, ?_⟩
  · intro m n p s hs
    have hd : s.data ≠ [] := fun h => hs (String.ext (by rw [h]))
    unfold vtLt
    simp
    cases hcs : s.data with
    | nil => exact absurd hcs hd
    | cons c cs => rfl
  · intro a b
    unfold vtLt
    split_ifs with h1 h2 h3
    · simp [h1]
    · simp [h1, h2]
      omega
    · simp [h1, h2, h3]
      omega
    · rw [not_ne_iff] at h1 h2 h3
      simp [h1, h2, h3]

/-- C6: the formula-string escaping first doubles every backslash and then
escapes every double quote, in that order: for every input the result
equals the single pass that doubles each backslash and prefixes each double
quote with a backslash, the pinned concrete cases hold, and the reversed
order would produce a different (double-escaped) result on an input holding
a backslash directly before a quote. -/
theorem rb_escape_order_and_cases :
    (∀ s : String, rb_escape s = String.mk (s.data.map escBoth).flatten) ∧
    rb_escape "simple" = "simple" ∧
    rb_escape "with \"quotes\"" = "with \\\"quotes\\\"" ∧
    rb_escape "with\\backslash" = "with\\\\backslash" ∧
    rb_escape "both\\\"test\"" = "both\\\\\\\"test\\\"" ∧
    rbEscapeReversed "both\\\"test\"" ≠ rb_escape "both\\\"test\"" := by
  refine ⟨rb_escape_singlePass, by decide, by decide, by decide, by decide, by decide⟩

/-! ## Name normalizer: class names -/

/-- Splitting pass of the name normalizer: maximal runs of alphanumeric
characters become tokens, every other character separates; the accumulator
holds the current run reversed. -/
def splitAlnumAux : List Char → List Char → List (List Char)
  | [], acc => if acc.isEmpty then [] else [acc.reverse]
  | c :: cs, acc =>
    if c.isAlphanum then splitAlnumAux cs (c :: acc)
    else if acc.isEmpty then splitAlnumAux cs []
    else acc.reverse :: splitAlnumAux cs []

/-- Tokens of a character list: its maximal alphanumeric runs. -/
def splitAlnum (cs : List Char) : List (List Char) := splitAlnumAux cs []

/-- A token made only of decimal digits. -/
def isNumericTok (t : List Char) : Bool := t.all Char.isDigit

/-- Capitalize a token: first character to upper case, the rest to lower
case. -/
def capitalizeTok : List Char → List Char
  | [] => []
  | c :: cs => c.toUpper :: cs.map Char.toLower

/-- Lower-cased image of a token, the key for case-insensitive token
comparison. -/
def lowerTok (t : List Char) : List Char := t.map Char.toLower

/-- Collapse every token equal (case-insensitively) to the previously kept
token. -/
def collapseAux (prev : List Char) : List (List Char) → List (List Char)
  | [] => []
  | t :: rest =>
    if lowerTok t = lowerTok prev then collapseAux prev rest
    else t :: collapseAux t rest

/-- Collapse immediately-adjacent case-insensitive duplicate tokens to one
occurrence, keeping the first. -/
def collapseAdj : List (List Char) → List (List Char)
  | [] => []
  | t :: rest => t :: collapseAux t rest

/-- Modelled from the spec: `to_class_name` splits on runs of
non-alphanumeric characters, drops leading purely-numeric tokens,
capitalizes the first letter of each remaining token and lowercases the
rest, collapses immediately-adjacent case-insensitive duplicate tokens,
concatenates, and falls back to "Tool" when the result would be empty. -/
def to_class_name (s : String) : String :=
  let toks := ((splitAlnum s.data).dropWhile isNumericTok).map capitalizeTok
  let body := (collapseAdj toks).flatten
  if body.isEmpty then "Tool" else String.mk body

theorem char_isUpper_iff (c : Char) : c.isUpper = true ↔ 65 ≤ c.toNat ∧ c.toNat ≤ 90 := by
  simp [Char.isUpper, Char.toNat, UInt32.le_def, BitVec.le_def, UInt32.toNat]

theorem char_isLower_iff (c : Char) : c.isLower = true ↔ 97 ≤ c.toNat ∧ c.toNat ≤ 122 := by
  simp [Char.isLower, Char.toNat, UInt32.le_def, BitVec.le_def, UInt32.toNat]

theorem char_isDigit_iff (c : Char) : c.isDigit = true ↔ 48 ≤ c.toNat ∧ c.toNat ≤ 57 := by
  simp [Char.isDigit, Char.toNat, UInt32.le_def, BitVec.le_def, UInt32.toNat]

theorem char_isAlphanum_iff (c : Char) : c.isAlphanum = true ↔
    ((65 ≤ c.toNat ∧ c.toNat ≤ 90) ∨ (97 ≤ c.toNat ∧ c.toNat ≤ 122) ∨
      (48 ≤ c.toNat ∧ c.toNat ≤ 57)) := by
  simp [Char.isAlphanum, Char.isAlpha, char_isUpper_iff, char_isLower_iff, char_isDigit_iff,
    or_assoc]

theorem char_toNat_ofNat (n : Nat) (h : n.isValidChar) : (Char.ofNat n).toNat = n := by
  simp [Char.ofNat, h, Char.ofNatAux, Char.toNat, UInt32.toNat]

theorem toUpper_toNat (c : Char) :
    c.toUpper.toNat = if 97 ≤ c.toNat ∧ c.toNat ≤ 122 then c.toNat - 32 else c.toNat := by
  unfold Char.toUpper
  dsimp only
  simp only [ge_iff_le]
  split_ifs with h
  · exact char_toNat_ofNat (c.toNat - 32) (Or.inl (by omega))
  · rfl

theorem toLower_toNat (c : Char) :
    c.toLower.toNat = if 65 ≤ c.toNat ∧ c.toNat ≤ 90 then c.toNat + 32 else c.toNat := by
  unfold Char.toLower
  dsimp only
  simp only [ge_iff_le]
  split_ifs with h
  · exact char_toNat_ofNat (c.toNat + 32) (Or.inl (by omega))
  · rfl

theorem isAlphanum_toUpper {c : Char} (h : c.isAlphanum = true) :
    c.toUpper.isAlphanum = true := by
  rw [char_isAlphanum_iff] at h ⊢
  rw [toUpper_toNat]
  split_ifs <;> omega

theorem isAlphanum_toLower {c : Char} (h : c.isAlphanum = true) :
    c.toLower.isAlphanum = true := by
  rw [char_isAlphanum_iff] at h ⊢
  rw [toLower_toNat]
  split_ifs <;> omega

theorem toUpper_upper_or_digit {c : Char} (h : c.isAlphanum = true) :
    c.toUpper.isUpper = true ∨ c.toUpper.isDigit = true := by
  rw [char_isAlphanum_iff] at h
  rw [char_isUpper_iff, char_isDigit_iff, toUpper_toNat]
  split_ifs <;> omega

theorem splitAlnumAux_tokens :
    ∀ (cs acc : List Char), (∀ c ∈ acc, c.isAlphanum = true) →
      ∀ t ∈ splitAlnumAux cs acc, t ≠ [] ∧ ∀ c ∈ t, c.isAlphanum = true := by
  intro cs
  induction cs with
  | nil =>
    intro acc hacc t ht
    unfold splitAlnumAux at ht
    by_cases he : acc.isEmpty
    · simp [he] at ht
    · simp [he] at ht
      subst ht
      refine ⟨?_, ?_⟩
      · simp [List.isEmpty_iff] at he
        simp [he]
      · intro c hc
        exact hacc c (List.mem_reverse.mp hc)
  | cons c cs ih =>
    intro acc hacc t ht
    unfold splitAlnumAux at ht
    by_cases hA : c.isAlphanum
    · rw [if_pos hA] at ht
      refine ih (c :: acc) ?_ t ht
      intro x hx
      rcases List.mem_cons.mp hx with h | h
      · subst h ; exact hA
      · exact hacc x h
    · rw [if_neg hA] at ht
      by_cases he : acc.isEmpty
      · rw [if_pos he] at ht
        exact ih [] (by simp) t ht
      · rw [if_neg he] at ht
        rcases List.mem_cons.mp ht with h | h
        · subst h
          refine ⟨?_, ?_⟩
          · simp [List.isEmpty_iff] at he
            simp [he]
          · intro x hx
            exact hacc x (List.mem_reverse.mp hx)
        · exact ih [] (by simp) t h

theorem splitAlnum_tokens (cs : List Char) :
    ∀ t ∈ splitAlnum cs, t ≠ [] ∧ ∀ c ∈ t, c.isAlphanum = true :=
  splitAlnumAux_tokens cs [] (by simp)

theorem mem_collapseAux : ∀ (l : List (List Char)) (prev t : List Char),
    t ∈ collapseAux prev l → t ∈ l := by
  intro l
  induction l with
  | nil => intro prev t ht ; simp [collapseAux] at ht
  | cons x xs ih =>
    intro prev t ht
    unfold collapseAux at ht
    by_cases he : lowerTok x = lowerTok prev
    · rw [if_pos he] at ht
      exact List.mem_cons_of_mem x (ih prev t ht)
    · rw [if_neg he] at ht
      rcases List.mem_cons.mp ht with h | h
      · rw [h] ; exact List.mem_cons_self x xs
      · exact List.mem_cons_of_mem x (ih x t h)

theorem mem_collapseAdj (l : List (List Char)) (t : List Char)
    (ht : t ∈ collapseAdj l) : t ∈ l := by
  cases l with
  | nil => simp [collapseAdj] at ht
  | cons x xs =>
    unfold collapseAdj at ht
    rcases List.mem_cons.mp ht with h | h
    · rw [h] ; exact List.mem_cons_self x xs
    · exact List.mem_cons_of_mem x (mem_collapseAux xs x t h)

theorem capitalizeTok_props (t : List Char) (hne : t ≠ [])
    (halnum : ∀ c ∈ t, c.isAlphanum = true) :
    capitalizeTok t ≠ [] ∧ (∀ c ∈ capitalizeTok t, c.isAlphanum = true) ∧
      ∃ c cs, capitalizeTok t = c :: cs ∧ (c.isUpper = true ∨ c.isDigit = true) := by
  cases t with
  | nil => exact absurd rfl hne
  | cons c cs =>
    have hc : c.isAlphanum = true := halnum c (List.mem_cons_self c cs)
    refine ⟨by simp [capitalizeTok], ?_, ?_⟩
    · intro x hx
      unfold capitalizeTok at hx
      rcases List.mem_cons.mp hx with h | h
      · subst h ; exact isAlphanum_toUpper hc
      · rcases List.mem_map.mp h with ⟨y, hy, hxy⟩
        subst hxy
        exact isAlphanum_toLower (halnum y (List.mem_cons_of_mem c hy))
    · exact ⟨c.toUpper, cs.map Char.toLower, rfl, toUpper_upper_or_digit hc⟩

theorem to_class_name_props (s : String) :
    (to_class_name s).data ≠ [] ∧
    (∀ c ∈ (to_class_name s).data, c.isAlphanum = true) ∧
    ∃ c cs, (to_class_name s).data = c :: cs ∧ (c.isUpper = true ∨ c.isDigit = true) := by
  unfold to_class_name
  dsimp only
  have htok : ∀ t ∈ collapseAdj (((splitAlnum s.data).dropWhile isNumericTok).map capitalizeTok),
      (∀ c ∈ t, c.isAlphanum = true) ∧
        ∃ c cs, t = c :: cs ∧ (c.isUpper = true ∨ c.isDigit = true) := by
    intro t ht
    have ht2 := mem_collapseAdj _ _ ht
    rcases List.mem_map.mp ht2 with ⟨u, hu, hut⟩
    have hu2 : u ∈ splitAlnum s.data := List.dropWhile_subset _ hu
    rcases splitAlnum_tokens s.data u hu2 with ⟨hne, halnum⟩
    rcases capitalizeTok_props u hne halnum with ⟨h1, h2, h3⟩
    rw [← hut]
    exact ⟨h2, h3⟩
  by_cases he : ((collapseAdj
      (((splitAlnum s.data).dropWhile isNumericTok).map capitalizeTok)).flatten).isEmpty
  · rw [if_pos he]
    exact ⟨by decide, by decide, ⟨'T', ['o', 'o', 'l'], by decide, by decide⟩⟩
  · rw [if_neg he]
    have hb : (collapseAdj
        (((splitAlnum s.data).dropWhile isNumericTok).map capitalizeTok)).flatten ≠ [] := by
      simpa [List.isEmpty_iff] using he
    refine ⟨hb, ?_, ?_⟩
    · intro c hc
      rcases List.mem_flatten.mp hc with ⟨t, ht, hct⟩
      exact (htok t ht).1 c hct
    · cases hl : collapseAdj (((splitAlnum s.data).dropWhile isNumericTok).map capitalizeTok) with
      | nil => rw [hl] at hb ; simp at hb
      | cons t rest =>
        rcases (htok t (hl ▸ List.mem_cons_self t rest)).2 with ⟨c, cs, hts, hcu⟩
        refine ⟨c, cs ++ rest.flatten, ?_, hcu⟩
        simp [hl, hts]

/-- C4 counterexample: on the input "1abc" the single token is not purely
numeric, so it is kept, and capitalizing leaves its leading digit in place:
the result starts with a digit, not an uppercase letter. -/
theorem to_class_name_not_upper_initial :
    to_class_name "1abc" = "1abc" ∧
      ((to_class_name "1abc").data.headD ' ').isUpper = false := by
  decide

/-- C4 (amended): for every input string, to_class_name returns a non-empty
string whose characters are all letters or digits (in particular only
letters, digits, and underscores) and whose first character is an uppercase
letter or a digit — an uppercase letter whenever the first kept token does
not begin with a digit, as in all the pinned cases; it splits on runs of
non-alphanumeric characters, drops leading purely-numeric tokens,
capitalizes each remaining token, collapses immediately-adjacent
case-insensitive duplicate tokens, and falls back to "Tool" when the result
would be empty. -/
theorem to_class_name_guarantees :
    (∀ s : String, (to_class_name s).data ≠ [] ∧
      (∀ c ∈ (to_class_name s).data, c.isAlphanum = true) ∧
      ∃ c cs, (to_class_name s).data = c :: cs ∧ (c.isUpper = true ∨ c.isDigit = true)) ∧
    to_class_name "my-script" = "MyScript" ∧
    to_class_name "tool_name" = "ToolName" ∧
    to_class_name "123-start" = "Start" ∧
    to_class_name "" = "Tool" ∧
    to_class_name "a-b-c" = "ABC" ∧
    to_class_name "CamelCase" = "Camelcase" ∧
    to_class_name "weird@#$name" = "WeirdName" ∧
    to_class_name "test-test-test" = "Test" := by
  exact ⟨to_class_name_props, by decide, by decide, by decide, by decide, by decide,
    by decide, by decide, by decide⟩

/-! ## Name normalizer: command names -/

/-- Lower-cased image of a string, character by character. -/
def lowerStr (s : String) : String := String.mk (s.data.map Char.toLower)

/-- Modelled from the spec: the recognized set of script extensions (shell,
Python, JavaScript/TypeScript variants, Ruby, Go and similar). -/
def script_extensions : List String :=
  ["sh", "bash", "zsh", "py", "rb", "js", "mjs", "cjs", "ts", "tsx", "jsx", "go", "pl"]

/-- Split a filename at its last dot: the stem and, when a dot exists, the
trailing extension token (without the dot). -/
def splitExt (cs : List Char) : List Char × Option (List Char) :=
  let r := cs.reverse
  let extR := r.takeWhile (fun c => c ≠ '.')
  let rest := r.dropWhile (fun c => c ≠ '.')
  match rest with
  | [] => (cs, none)
  | _ :: stemR => (stemR.reverse, some extR.reverse)

/-- The stem of a filename: everything before the last dot, or the whole
name when it has none. -/
def stemOf (s : String) : String := String.mk (splitExt s.data).1

/-- The trailing extension token of a filename, when it has one. -/
def extOf (s : String) : Option String := (splitExt s.data).2.map String.mk

/-- Modelled from the spec: `to_cmd_name` lowercases the filename; with
`preserve_extension` false it strips exactly one trailing extension token,
and only when that token belongs to the recognized set of script
extensions; an unrecognized extension is left attached. -/
def to_cmd_name (name : String) (preserve_extension : Bool) : String :=
  let low := lowerStr name
  if preserve_extension then low
  else
    match splitExt low.data with
    | (_, none) => low
    | (stem, some ext) =>
      if script_extensions.contains (String.mk ext) ∧ stem ≠ [] then String.mk stem else low

theorem to_cmd_name_preserve (s : String) : to_cmd_name s true = lowerStr s := rfl

theorem to_cmd_name_false_unrecognized (s e : String)
    (hext : extOf (lowerStr s) = some e) (hmem : e ∉ script_extensions) :
    to_cmd_name s false = lowerStr s := by
  unfold to_cmd_name
  dsimp only
  unfold extOf at hext
  rcases hse : splitExt (lowerStr s).data with ⟨stem, oe⟩
  rw [hse] at hext
  cases oe with
  | none => simp at hext
  | some l =>
    simp only [Option.map_some] at hext
    injection hext with hext
    have hc : ¬ (script_extensions.contains (String.mk l) = true ∧ stem ≠ []) := by
      intro hcon
      apply hmem
      rw [← hext]
      exact List.elem_iff.mp hcon.1
    simp only [List.elem_eq_mem, decide_eq_true_eq] at hc ⊢
    simp
    intro him hne2
    exact absurd (hext ▸ him) hmem

theorem to_cmd_name_false_recognized (s e : String)
    (hext : extOf (lowerStr s) = some e) (hmem : e ∈ script_extensions)
    (hstem : stemOf (lowerStr s) ≠ "") :
    to_cmd_name s false = stemOf (lowerStr s) := by
  unfold to_cmd_name
  dsimp only
  unfold extOf at hext
  unfold stemOf at hstem ⊢
  rcases hse : splitExt (lowerStr s).data with ⟨stem, oe⟩
  rw [hse] at hext hstem
  cases oe with
  | none => simp at hext
  | some l =>
    simp only [Option.map_some] at hext
    injection hext with hext
    dsimp only at hstem ⊢
    have hc : script_extensions.contains (String.mk l) = true ∧ stem ≠ [] := by
      constructor
      · rw [hext]
        exact List.elem_iff.mpr hmem
      · intro hnil
        exact hstem (by rw [hnil])
    simp
    intro hnot
    have hmem2 : String.mk l ∈ script_extensions := by rw [hext] ; exact hmem
    exact absurd (hnot hmem2) hc.2

/-- C5: to_cmd_name with preserve_extension true returns the lowercased
filename with its original extension; with preserve_extension false it
strips exactly one trailing extension token only when recognized, leaving
an unrecognized extension attached, as on the pinned cases. -/
theorem to_cmd_name_extension_rules :
    (∀ s : String, to_cmd_name s true = lowerStr s) ∧
    (∀ s e : String, extOf (lowerStr s) = some e → e ∉ script_extensions →
      to_cmd_name s false = lowerStr s) ∧
    (∀ s e : String, extOf (lowerStr s) = some e → e ∈ script_extensions →
      stemOf (lowerStr s) ≠ "" → to_cmd_name s false = stemOf (lowerStr s)) ∧
    to_cmd_name "script.sh" false = "script" ∧
    to_cmd_name "my-tool.py" false = "my-tool" ∧
    to_cmd_name "MyScript.js" false = "myscript" ∧
    to_cmd_name "tool.unknown" false = "tool.unknown" ∧
    to_cmd_name "script.sh" true = "script.sh" ∧
    to_cmd_name "app.mjs" false = "app" ∧
    to_cmd_name "component.tsx" false = "component" ∧
    to_cmd_name "tool.go" false = "tool" := by
  exact ⟨to_cmd_name_preserve, to_cmd_name_false_unrecognized, to_cmd_name_false_recognized,
    by decide, by decide, by decide, by decide, by decide, by decide, by decide, by decide⟩

/-- C5 witness: the general clauses instantiated at concrete inputs, with
each hypothesis discharged by evaluation. -/
theorem to_cmd_name_extension_rules_witness :
    to_cmd_name "tool.unknown" false = lowerStr "tool.unknown" ∧
    to_cmd_name "MyScript.js" false = stemOf (lowerStr "MyScript.js") := by
  constructor
  · exact to_cmd_name_extension_rules.2.1 "tool.unknown" "unknown" (by decide) (by decide)
  · exact to_cmd_name_extension_rules.2.2.1 "MyScript.js" "js" (by decide) (by decide) (by decide)

/-! ## Metadata extractor -/

/-- Modelled from the spec: strip the leading run of non-alphanumeric
marker characters and following whitespace from a header line; a line
beginning with an alphanumeric character is returned verbatim. -/
def stripMarker (line : String) : String :=
  String.mk (line.data.dropWhile (fun c => ¬ c.isAlphanum))

/-- Modelled from the spec: `extract_metadata` is purely positional on the
script's lines: line 2 stripped of its marker is the description, line 3
treated identically is the version, a missing line yields null. -/
def extract_metadata (lines : List String) : Option String × Option String :=
  (lines[1]?.map stripMarker, lines[2]?.map stripMarker)

theorem stripMarker_verbatim (s : String) (c : Char) (cs : List Char)
    (hs : s.data = c :: cs) (hc : c.isAlphanum = true) : stripMarker s = s := by
  unfold stripMarker
  rw [hs]
  rw [List.dropWhile_cons]
  simp [hc]
  exact String.ext hs.symm

theorem extract_metadata_positional (l0 l1 l2 : String) (rest : List String) :
    extract_metadata (l0 :: l1 :: l2 :: rest) =
      (some (stripMarker l1), some (stripMarker l2)) := by
  simp [extract_metadata]

theorem extract_metadata_two (l0 l1 : String) :
    extract_metadata [l0, l1] = (some (stripMarker l1), none) := by
  simp [extract_metadata]

theorem extract_metadata_one (l0 : String) : extract_metadata [l0] = (none, none) := by
  simp [extract_metadata]

/-- C3: extract_metadata is purely positional and never fails on content:
line 2 with its leading marker run stripped becomes the description and
line 3 treated identically becomes the version, for hash-comment and
double-slash-comment scripts alike; a line carrying no marker is returned
verbatim; a missing line 2 or 3 yields null for its field. -/
theorem extract_metadata_positional_rules :
    (∀ l0 l1 l2 : String, ∀ rest : List String,
      extract_metadata (l0 :: l1 :: l2 :: rest) =
        (some (stripMarker l1), some (stripMarker l2))) ∧
    (∀ s : String, ∀ c : Char, ∀ cs : List Char,
      s.data = c :: cs → c.isAlphanum = true → stripMarker s = s) ∧
    (∀ l0 l1 : String, extract_metadata [l0, l1] = (some (stripMarker l1), none)) ∧
    (∀ l0 : String, extract_metadata [l0] = (none, none)) ∧
    extract_metadata [] = (none, none) ∧
    extract_metadata ["#!/usr/bin/env bash", "# Resize images in batch", "# 1.2.3",
      "echo \"Hello\""] = (some "Resize images in batch", some "1.2.3") ∧
    extract_metadata ["#!/usr/bin/env python3", "# Process CSV files", "# 2.0.0",
      "say hello"] = (some "Process CSV files", some "2.0.0") ∧
    extract_metadata ["#!/usr/bin/env node", "// Convert data formats", "// 0.5.0",
      "console.log"] = (some "Convert data formats", some "0.5.0") ∧
    extract_metadata ["#!/usr/bin/env bash", "echo \"No metadata here\""] =
      (some "echo \"No metadata here\"", none) ∧
    extract_metadata ["#!/usr/bin/env bash", "# Only has description", "echo \"Hello\""] =
      (some "Only has description", some "echo \"Hello\"") := by
  exact ⟨extract_metadata_positional, stripMarker_verbatim, extract_metadata_two,
    extract_metadata_one, by decide, by decide, by decide, by decide, by decide, by decide⟩

/-! ## Content hasher: SHA-256 over the raw file bytes -/

/-- Reduce to a 32-bit word. -/
def w32 (n : Nat) : Nat := n % 4294967296

/-- Right rotation of a 32-bit word. -/
def rotr32 (x n : Nat) : Nat := w32 ((x >>> n) ||| (x <<< (32 - n)))

/-- The SHA-256 choice function, the complement taken within 32 bits. -/
def shaCh (x y z : Nat) : Nat := (x &&& y) ^^^ ((x ^^^ 4294967295) &&& z)

/-- The SHA-256 majority function. -/
def shaMaj (x y z : Nat) : Nat := (x &&& y) ^^^ (x &&& z) ^^^ (y &&& z)

/-- The big sigma-0 word function. -/
def bsig0 (x : Nat) : Nat := rotr32 x 2 ^^^ rotr32 x 13 ^^^ rotr32 x 22

/-- The big sigma-1 word function. -/
def bsig1 (x : Nat) : Nat := rotr32 x 6 ^^^ rotr32 x 11 ^^^ rotr32 x 25

/-- The small sigma-0 word function. -/
def ssig0 (x : Nat) : Nat := rotr32 x 7 ^^^ rotr32 x 18 ^^^ (x >>> 3)

/-- The small sigma-1 word function. -/
def ssig1 (x : Nat) : Nat := rotr32 x 17 ^^^ rotr32 x 19 ^^^ (x >>> 10)

/-- The sixty-four SHA-256 round constants. -/
def shaK : List Nat :=
  [1116352408, 1899447441, 3049323471, 3921009573, 961987163,
   1508970993, 2453635748, 2870763221, 3624381080, 310598401,
   607225278, 1426881987, 1925078388, 2162078206, 2614888103,
   3248222580, 3835390401, 4022224774, 264347078, 604807628,
   770255983, 1249150122, 1555081692, 1996064986, 2554220882,
   2821834349, 2952996808, 3210313671, 3336571891, 3584528711,
   113926993, 338241895, 666307205, 773529912, 1294757372,
   1396182291, 1695183700, 1986661051, 2177026350, 2456956037,
   2730485921, 2820302411, 3259730800, 3345764771, 3516065817,
   3600352804, 4094571909, 275423344, 430227734, 506948616,
   659060556, 883997877, 958139571, 1322822218, 1537002063,
   1747873779, 1955562222, 2024104815, 2227730452, 2361852424,
   2428436474, 2756734187, 3204031479, 3329325298]

/-- Big-endian eight-byte serialization of the bit length. -/
def be64 (n : Nat) : List Nat :=
  [(n >>> 56) % 256, (n >>> 48) % 256, (n >>> 40) % 256, (n >>> 32) % 256,
   (n >>> 24) % 256, (n >>> 16) % 256, (n >>> 8) % 256, n % 256]

/-- SHA-256 padding: append the 0x80 byte, zero bytes to 56 modulo 64, and
the big-endian 64-bit bit length. -/
def shaPad (msg : List Nat) : List Nat :=
  msg ++ 128 :: List.replicate ((119 - msg.length % 64) % 64) 0 ++ be64 (msg.length * 8)

/-- Chop the padded message into 64-byte blocks, fuel-driven so that it
computes by structural recursion; the fuel, the list length, always
suffices. -/
def toBlocksFuel : Nat → List Nat → List (List Nat)
  | 0, _ => []
  | _, [] => []
  | fuel + 1, l => l.take 64 :: toBlocksFuel fuel (l.drop 64)

/-- The 64-byte blocks of a padded message. -/
def toBlocks (l : List Nat) : List (List Nat) := toBlocksFuel l.length l

/-- Big-endian 32-bit word number i of a block. -/
def word32At (block : List Nat) (i : Nat) : Nat :=
  (block.getD (4 * i) 0 <<< 24) ||| (block.getD (4 * i + 1) 0 <<< 16) |||
    (block.getD (4 * i + 2) 0 <<< 8) ||| block.getD (4 * i + 3) 0

/-- Extend the 16-word message schedule by the given number of words. -/
def extendLoop : List Nat → Nat → List Nat
  | w, 0 => w
  | w, n + 1 =>
    let k := w.length
    extendLoop (w ++ [w32 (ssig1 (w.getD (k - 2) 0) + w.getD (k - 7) 0 +
      ssig0 (w.getD (k - 15) 0) + w.getD (k - 16) 0)]) n

/-- The 64-word message schedule of one block. -/
def buildW (block : List Nat) : List Nat :=
  extendLoop ((List.range 16).map (word32At block)) 48

/-- The eight 32-bit working variables of the compression function. -/
structure Hash8 where
  a : Nat
  b : Nat
  c : Nat
  d : Nat
  e : Nat
  f : Nat
  g : Nat
  h : Nat
  deriving DecidableEq, Repr

/-- One SHA-256 compression round. -/
def roundStep (st : Hash8) (ki wi : Nat) : Hash8 :=
  let t1 := w32 (st.h + bsig1 st.e + shaCh st.e st.f st.g + ki + wi)
  let t2 := w32 (bsig0 st.a + shaMaj st.a st.b st.c)
  ⟨w32 (t1 + t2), st.a, st.b, st.c, w32 (st.d + t1), st.e, st.f, st.g⟩

/-- Fold the rounds over the round constants and the message schedule. -/
def compressRounds : List Nat → List Nat → Hash8 → Hash8
  | [], _, st => st
  | _ :: _, [], st => st
  | ki :: ks, wi :: ws, st => compressRounds ks ws (roundStep st ki wi)

/-- Compress one block and add the result into the running state. -/
def processBlock (st : Hash8) (block : List Nat) : Hash8 :=
  let r := compressRounds shaK (buildW block) st
  ⟨w32 (st.a + r.a), w32 (st.b + r.b), w32 (st.c + r.c), w32 (st.d + r.d),
   w32 (st.e + r.e), w32 (st.f + r.f), w32 (st.g + r.g), w32 (st.h + r.h)⟩

/-- The SHA-256 initial hash value. -/
def shaInit : Hash8 :=
  ⟨1779033703, 3144134277, 1013904242, 2773480762,
   1359893119, 2600822924, 528734635, 1541459225⟩

/-- The eight state words of the SHA-256 digest of a byte list. -/
def sha256Words (msg : List Nat) : Hash8 :=
  (toBlocks (shaPad msg)).foldl processBlock shaInit

/-- Lower-case hexadecimal digit character. -/
def hexDigit (n : Nat) : Char :=
  if n < 10 then Char.ofNat (48 + n) else Char.ofNat (87 + n)

/-- Eight-character lower-case hexadecimal image of a 32-bit word. -/
def hex8 (n : Nat) : List Char :=
  (List.range 8).map (fun i => hexDigit ((n >>> ((7 - i) * 4)) &&& 15))

/-- Modelled from the spec: `sha256_file` streams the raw bytes of the
file, modelled here as the byte list itself, through SHA-256 and returns
the lower-case hex digest. -/
def sha256_file (msg : List Nat) : String :=
  let st := sha256Words msg
  String.mk (hex8 st.a ++ hex8 st.b ++ hex8 st.c ++ hex8 st.d ++
    hex8 st.e ++ hex8 st.f ++ hex8 st.g ++ hex8 st.h)

/-- Bytes of an ASCII string, for concrete digest checks. -/
def strBytes (s : String) : List Nat := s.data.map Char.toNat

set_option maxRecDepth 4096

/-- C8: sha256_file is deterministic — identical file bytes always yield an
identical lowercase hex digest — the digest of the zero-length input is the
canonical empty-input SHA-256 value, and the pinned Hello-World digest of
the test suite also holds. -/
theorem sha256_deterministic_and_empty :
    (∀ b1 b2 : List Nat, b1 = b2 → sha256_file b1 = sha256_file b2) ∧
    sha256_file [] = "e3b0c44298fc1c149afbf4c8996fb92427ae41e4649b934ca495991b7852b855" ∧
    sha256_file (strBytes "Hello, World!") =
      "dffd6021bb2bd5b0af676290809ec3a53191dd81c7f70a4b28688a362182986f" := by
  exact ⟨fun b1 b2 h => h ▸ rfl, by decide, by decide⟩

/-! ## Conflict detector: alternative names -/

/-- Modelled from the spec: the small fixed set of naming strategies — a
numeric suffix, a distinguishing prefix, a "-local" suffix. -/
def name_strategies (name : String) : List String :=
  [name ++ "2", "my-" ++ name, name ++ "-local"]

/-- Modelled from the spec: `suggest_alternative_name` deterministically
returns the first strategy candidate, never the original name. -/
def suggest_alternative_name (name : String) : String :=
  (name_strategies name).headD (name ++ "2")

/-- C9: suggest_alternative_name deterministically returns a single
candidate produced by the fixed strategies and that candidate is never the
original name; on the pinned inputs it is the numeric-suffix candidate. -/
theorem suggest_alternative_name_props :
    (∀ name : String, suggest_alternative_name name ∈ name_strategies name) ∧
    (∀ name : String, suggest_alternative_name name ≠ name) ∧
    suggest_alternative_name "tool" = "tool2" ∧
    suggest_alternative_name "script" = "script2" ∧
    suggest_alternative_name "my-app" = "my-app2" := by
  refine ⟨?_, ?_, by decide, by decide, by decide⟩
  · intro name
    exact List.mem_cons_self _ _
  · intro name h
    have hlen : (suggest_alternative_name name).length = name.length + 1 := by
      show (name ++ "2").length = name.length + 1
      simp
      rfl
    rw [h] at hlen
    omega

/-! ## Bundle manager: restore -/

/-- Modelled from the spec: one BundleManifest entry. -/
structure BundleEntry where
  cmd : String
  desc : String
  version : String
  content_hash : String
  relative_path : String
  deriving DecidableEq, Repr

/-- Outcome recorded for one restored entry. -/
inductive RestoreOutcome where
  | installed
  | rejected
  deriving DecidableEq, Repr

/-- Modelled from the spec: restoring one entry recomputes the hash of the
bundled file (given by `recompute` on the entry's relative path) and
compares it to the stored hash; a mismatch rejects only that entry, a match
installs it. -/
def restore_entry (recompute : String → String) (e : BundleEntry) : RestoreOutcome :=
  if recompute e.relative_path = e.content_hash then .installed else .rejected

/-- Modelled from the spec: restore walks every manifest entry in order,
collects a per-entry outcome, continues after each individual failure, and
reports overall failure (a non-zero result) exactly when some entry
failed. -/
def restore (recompute : String → String) (entries : List BundleEntry) :
    List RestoreOutcome × Bool :=
  let outcomes := entries.map (restore_entry recompute)
  (outcomes, outcomes.any (fun o => decide (o = .rejected)))

/-- C7: restore isolates per-entry failures: every entry receives an
outcome (none aborts the batch), an entry is rejected exactly when its
recomputed hash differs from the stored hash, installed exactly when it
matches, and the overall result is non-zero precisely when at least one
entry failed, the other entries staying installed. -/
theorem restore_isolates_failures :
    (∀ (recompute : String → String) (entries : List BundleEntry),
      (restore recompute entries).1.length = entries.length) ∧
    (∀ (recompute : String → String) (entries : List BundleEntry) (i : Nat)
      (e : BundleEntry), entries[i]? = some e →
        ((restore recompute entries).1[i]? = some .rejected ↔
          recompute e.relative_path ≠ e.content_hash)) ∧
    (∀ (recompute : String → String) (entries : List BundleEntry) (i : Nat)
      (e : BundleEntry), entries[i]? = some e →
        ((restore recompute entries).1[i]? = some .installed ↔
          recompute e.relative_path = e.content_hash)) ∧
    (∀ (recompute : String → String) (entries : List BundleEntry),
      ((restore recompute entries).2 = true ↔
        ∃ e ∈ entries, recompute e.relative_path ≠ e.content_hash)) := by
  refine ⟨?_, ?_, ?_, ?_⟩
  · intro recompute entries
    simp [restore]
  · intro recompute entries i e he
    simp [restore, List.getElem?_map, he, restore_entry]
  · intro recompute entries i e he
    simp [restore, List.getElem?_map, he, restore_entry]
  · intro recompute entries
    simp [restore, List.any_eq_true, restore_entry]

/-- C7 witness: a two-entry manifest with one corrupted entry: the good
entry is installed, the bad entry rejected, and the overall result is
non-zero. -/
theorem restore_isolates_failures_witness :
    (restore (fun _ => "h1")
        [⟨"a", "", "1", "h1", "a.sh"⟩, ⟨"b", "", "1", "h2", "b.sh"⟩]).1[0]? =
      some RestoreOutcome.installed ∧
    (restore (fun _ => "h1")
        [⟨"a", "", "1", "h1", "a.sh"⟩, ⟨"b", "", "1", "h2", "b.sh"⟩]).1[1]? =
      some RestoreOutcome.rejected ∧
    (restore (fun _ => "h1")
        [⟨"a", "", "1", "h1", "a.sh"⟩, ⟨"b", "", "1", "h2", "b.sh"⟩]).2 = true := by
  refine ⟨?_, ?_, by decide⟩
  · exact (restore_isolates_failures.2.2.1 (fun _ => "h1")
      [⟨"a", "", "1", "h1", "a.sh"⟩, ⟨"b", "", "1", "h2", "b.sh"⟩] 0
      ⟨"a", "", "1", "h1", "a.sh"⟩ (by decide)).mpr (by decide)
  · exact (restore_isolates_failures.2.1 (fun _ => "h1")
      [⟨"a", "", "1", "h1", "a.sh"⟩, ⟨"b", "", "1", "h2", "b.sh"⟩] 1
      ⟨"b", "", "1", "h2", "b.sh"⟩ (by decide)).mpr (by decide)

/-! ## Backend query: formula info -/

/-- One installed-version record reported by the backend. -/
structure InstalledVersion where
  version : String
  deriving DecidableEq, Repr

/-- The versions block of one formula as reported by the backend. -/
structure FormulaInfo where
  stable : Option String
  installed : List InstalledVersion
  deriving DecidableEq, Repr

/-- A failed backend invocation (a non-zero exit of the underlying
command). -/
inductive BrewError where
  | calledProcessError (code : Nat)
  deriving DecidableEq, Repr

/-- Modelled from the spec and tests: `get_formula_info` consumes the
result of querying the backend for a named entry; a failed invocation is
not propagated but becomes (null, empty list), and a successful one yields
the stable version and the installed version strings. -/
def get_formula_info (queryResult : Except BrewError (List FormulaInfo)) :
    Option String × List String :=
  match queryResult with
  | .error _ => (none, [])
  | .ok [] => (none, [])
  | .ok (f :: _) => (f.stable, f.installed.map InstalledVersion.version)

/-- C10: a failed backend query is swallowed: get_formula_info returns
(null, empty list) for every backend error, indistinguishable from a
never-installed entry (the empty query result), rather than surfacing the
error; the pinned success case also holds. -/
theorem get_formula_info_error_swallowed :
    (∀ e : BrewError, get_formula_info (.error e) = (none, [])) ∧
    (∀ e : BrewError, get_formula_info (.error e) = get_formula_info (.ok [])) ∧
    get_formula_info (.ok [⟨some "1.0.0", [⟨"1.0.0"⟩]⟩]) = (some "1.0.0", ["1.0.0"]) := by
  exact ⟨fun e => rfl, fun e => rfl, rfl⟩
